import Mathlib

/-!
Verification of the `bloodhound_autoconfig.py` Nmap-report parser.

Text is modelled as `List Char`. Each Python regex used by the parser is
embedded as an executable Lean function with the exact leftmost-search and
greedy-backtracking semantics of `re.search` / `re.findall` for that
concrete pattern. All definitions are translated from the source file
`src/bloodhound_autoconfig.py`.
-/

set_option maxHeartbeats 1000000
set_option maxRecDepth 4096

/-- String literal to character list. -/
def toL (s : String) : List Char := s.toList

/-- `headMatch n h` : `n` is an initial segment of `h`. -/
def headMatch : List Char → List Char → Bool
  | [], _ => true
  | _ :: _, [] => false
  | x :: xs, y :: ys => x == y && headMatch xs ys

/-- Substring occurrence test (Python `in` on strings). -/
def containsL (needle : List Char) : List Char → Bool
  | [] => headMatch needle []
  | c :: rest => headMatch needle (c :: rest) || containsL needle rest

/-- Python `str.lower()` (ASCII range, which covers all patterns used). -/
def lowerL (s : List Char) : List Char := s.map Char.toLower

/-- Python `str.upper()` (ASCII range). -/
def upperL (s : List Char) : List Char := s.map Char.toUpper

/-- Python whitespace for `\s` and `str.strip()`: space, tab, LF, VT, FF, CR. -/
def isSpaceC (c : Char) : Bool :=
  c == ' ' || c == '\t' || c == '\n' || c == '\x0b' || c == '\x0c' || c == '\r'

/-- Python `str.strip()`. -/
def stripL (s : List Char) : List Char :=
  ((s.dropWhile isSpaceC).reverse.dropWhile isSpaceC).reverse

/-- Python `str.split(sep)` for a one-character separator. -/
def splitOnChar (sep : Char) : List Char → List (List Char)
  | [] => [[]]
  | c :: rest =>
    if c = sep then [] :: splitOnChar sep rest
    else
      let r := splitOnChar sep rest
      (c :: r.headD []) :: r.tail

/-- Python `sep.join(parts)`. -/
def joinWith (sep : List Char) : List (List Char) → List Char
  | [] => []
  | [x] => x
  | x :: y :: rest => x ++ sep ++ joinWith sep (y :: rest)

/-- Structural worker for the decimal representation; the fuel only bounds
the recursion depth and is irrelevant as long as it exceeds `n`. -/
def natToDigitsGo : Nat → Nat → List Char
  | 0, _ => []
  | fuel + 1, n =>
    if n < 10 then [Nat.digitChar n]
    else natToDigitsGo fuel (n / 10) ++ [Nat.digitChar (n % 10)]

/-- Decimal digit list of a natural number (Python `str(n)` for `n ≥ 0`). -/
def natToDigits (n : Nat) : List Char := natToDigitsGo (n + 1) n

/-- Value of a decimal digit list (left fold), used only in proofs. -/
def digitsToNat (ds : List Char) : Nat :=
  ds.foldl (fun acc c => acc * 10 + (c.toNat - 48)) 0

/-- Leftmost-position scan of `re.search`: try a position matcher at every
position from the left, first success wins. -/
def reSearch (tryAt : List Char → Option (List Char)) : List Char → Option (List Char)
  | [] => tryAt []
  | c :: rest =>
    match tryAt (c :: rest) with
    | some r => some r
    | none => reSearch tryAt rest

/-- The `(\d+\.\d+\.\d+\.\d+)` building block: a maximal nonempty digit run
followed by a literal dot (digits and `.` are disjoint, so the greedy run
is exact). -/
def digitsThenDot (s : List Char) : Option (List Char × List Char) :=
  let d := s.takeWhile Char.isDigit
  if d = [] then none
  else
    match s.drop d.length with
    | '.' :: r => some (d, r)
    | _ => none

/-- Match `(\d+\.\d+\.\d+\.\d+)` anchored at the current position. -/
def tryIPAt (s : List Char) : Option (List Char) :=
  match digitsThenDot s with
  | none => none
  | some (d1, r1) =>
    match digitsThenDot r1 with
    | none => none
    | some (d2, r2) =>
      match digitsThenDot r2 with
      | none => none
      | some (d3, r3) =>
        let d4 := r3.takeWhile Char.isDigit
        if d4 = [] then none
        else some (d1 ++ '.' :: d2 ++ '.' :: d3 ++ '.' :: d4)

/-- `re.search(r'(\d+\.\d+\.\d+\.\d+)', first_line)`. -/
def ipSearch (s : List Char) : Option (List Char) := reSearch tryIPAt s

/-- `re.search(r'^([^\(]+)', first_line)`: anchored, so it matches exactly
when at least one leading character differs from `(`. -/
def hostnameRaw (fl : List Char) : Option (List Char) :=
  let cap := fl.takeWhile (fun c => c ≠ '(')
  if cap = [] then none else some cap

/-- The `AD_PORTS` table, in Python dict insertion order. -/
def AD_PORTS : List (Nat × List Char) :=
  [(88, toL "Kerberos"), (389, toL "LDAP"), (636, toL "LDAPS"),
   (445, toL "SMB"), (3268, toL "Global Catalog"),
   (3269, toL "Global Catalog SSL"), (53, toL "DNS"), (135, toL "RPC")]

/-- The substring pattern `f'{port}/tcp'`. -/
def portPattern (p : Nat) : List Char := natToDigits p ++ toL "/tcp"

/-- `NmapParser._check_domain_controller`. -/
def checkDomainController (block : List Char) : Bool × List Nat × List (List Char) :=
  let block_lower := lowerL block
  let found := AD_PORTS.foldl
    (fun acc pr =>
      if containsL (portPattern pr.1) block_lower then
        (acc.1 ++ [pr.1], acc.2 ++ [pr.2])
      else acc)
    ([], [])
  let has_kerberos := found.1.contains 88
  let has_ldap := found.1.contains 389 || found.1.contains 636
  (has_kerberos && has_ldap, found.1, found.2)

/-! ### Domain extraction (`NmapParser._extract_domain`) -/

/-- Character class `[a-zA-Z0-9\-\.]`. -/
def isDomainChar (c : Char) : Bool := c.isAlpha || c.isDigit || c == '-' || c == '.'

/-- Character class `[:\s]`. -/
def isSepNC (c : Char) : Bool := c == ':' || isSpaceC c

/-- Match `Domain:\s*([a-zA-Z0-9\-\.]+)` (IGNORECASE) anchored at the
current position. The capture class contains no whitespace, so the greedy
`\s*` never needs to backtrack. -/
def tryDomainAt (s : List Char) : Option (List Char) :=
  if headMatch (toL "domain:") (lowerL s) then
    let cap := ((s.drop 7).dropWhile isSpaceC).takeWhile isDomainChar
    if cap = [] then none else some cap
  else none

/-- Backtracking for `[:\s]+([^\n,]+)`: the separator run first takes `k`
characters (maximal run), then shrinks down to 1 until the capture can
start on a character other than `\n` and `,`. -/
def m2Cap (u : List Char) (k : Nat) : Option (List Char) :=
  match k with
  | 0 => none
  | j + 1 =>
    match u.drop (j + 1) with
    | c :: v =>
      if c ≠ '\n' ∧ c ≠ ',' then
        some ((c :: v).takeWhile (fun x => x ≠ '\n' && x ≠ ','))
      else m2Cap u j
    | [] => m2Cap u j

/-- Match `defaultNamingContext[:\s]+([^\n,]+)` (IGNORECASE) anchored at the
current position. -/
def tryNamingContextAt (s : List Char) : Option (List Char) :=
  if headMatch (toL "defaultnamingcontext") (lowerL s) then
    let u := s.drop 20
    m2Cap u (u.takeWhile isSepNC).length
  else none

/-- `re.findall(r'DC=([^,]+)', dn, re.IGNORECASE)`: non-overlapping
leftmost matches; the scan resumes after each full match. -/
def findallDCGo : Nat → List Char → List (List Char)
  | 0, _ => []
  | fuel + 1, s =>
    match s with
    | [] => []
    | c :: rest =>
      if headMatch (toL "dc=") (lowerL (c :: rest)) then
        let cap := ((c :: rest).drop 3).takeWhile (fun x => x ≠ ',')
        if cap = [] then findallDCGo fuel rest
        else cap :: findallDCGo fuel (((c :: rest).drop 3).drop cap.length)
      else findallDCGo fuel rest

/-- Entry point with enough fuel (every step consumes at least one
character, so the length of the text bounds the recursion depth). -/
def findallDC (s : List Char) : List (List Char) := findallDCGo s.length s

/-- Backtracking for `\s*([^\n]+)`: the whitespace run first takes `k`
characters (maximal run), then shrinks down to 0 until the capture can
start on a character other than `\n`. -/
def m3Cap (u : List Char) (k : Nat) : Option (List Char) :=
  let here : Option (List Char) :=
    match u.drop k with
    | c :: v => if c = '\n' then none else some ((c :: v).takeWhile (fun x => x ≠ '\n'))
    | [] => none
  match here with
  | some cap => some cap
  | none =>
    match k with
    | 0 => none
    | j + 1 => m3Cap u j

/-- Match `dns_computer_name:\s*([^\n]+)` (IGNORECASE) anchored at the
current position. -/
def tryDnsNameAt (s : List Char) : Option (List Char) :=
  if headMatch (toL "dns_computer_name:") (lowerL s) then
    let u := s.drop 18
    m3Cap u (u.takeWhile isSpaceC).length
  else none

/-- Match `forest[:\s]+([a-zA-Z0-9\-\.]+)` (IGNORECASE) anchored at the
current position. The capture class excludes `:` and whitespace, so the
greedy `[:\s]+` never needs to backtrack. -/
def tryForestAt (s : List Char) : Option (List Char) :=
  if headMatch (toL "forest") (lowerL s) then
    let u := s.drop 6
    let sepLen := (u.takeWhile isSepNC).length
    if sepLen = 0 then none
    else
      let cap := (u.drop sepLen).takeWhile isDomainChar
      if cap = [] then none else some cap
  else none

/-- Strategy 1: explicit `Domain:` label (`group(1).strip()`). -/
def domainFromLabel (block : List Char) : Option (List Char) :=
  (reSearch tryDomainAt block).map stripL

/-- Strategy 2: LDAP `defaultNamingContext`; collects `DC=` components of
the captured value and joins them with dots; falls through when no
component is found. -/
def domainFromNamingContext (block : List Char) : Option (List Char) :=
  match reSearch tryNamingContextAt block with
  | some raw =>
    let dn := stripL raw
    let dc_parts := findallDC dn
    if dc_parts = [] then none else some (joinWith ['.'] dc_parts)
  | none => none

/-- The raw `dns_computer_name:` search used by strategy 3. -/
def dnsNameSearch (block : List Char) : Option (List Char) :=
  reSearch tryDnsNameAt block

/-- Strategy 3: `dns_computer_name:` value; when the stripped value has a
dot, drop its first dot-separated label; falls through otherwise. -/
def domainFromDnsName (block : List Char) : Option (List Char) :=
  match dnsNameSearch block with
  | some raw =>
    let fqdn := stripL raw
    if fqdn.contains '.' then
      some (joinWith ['.'] ((splitOnChar '.' fqdn).drop 1))
    else none
  | none => none

/-- Strategy 4: `forest:` label (`group(1).strip()`). -/
def domainFromForest (block : List Char) : Option (List Char) :=
  (reSearch tryForestAt block).map stripL

/-- `NmapParser._extract_domain`: the four strategies in source order,
first successful return wins. -/
def extractDomain (block : List Char) : Option (List Char) :=
  match domainFromLabel block with
  | some d => some d
  | none =>
    match domainFromNamingContext block with
    | some d => some d
    | none =>
      match domainFromDnsName block with
      | some d => some d
      | none => domainFromForest block

/-! ### NetBIOS extraction (`NmapParser._extract_netbios`) -/

/-- Character class `[a-zA-Z0-9\-]`. -/
def isNBChar (c : Char) : Bool := c.isAlpha || c.isDigit || c == '-'

/-- Tail `Domain:\s*([a-zA-Z0-9\-]+)` of the first NetBIOS pattern,
anchored at the current position. -/
def nbDomTail (v : List Char) : Option (List Char) :=
  if headMatch (toL "domain:") (lowerL v) then
    let cap := ((v.drop 7).dropWhile isSpaceC).takeWhile isNBChar
    if cap = [] then none else some cap
  else none

/-- Greedy `.*` before the `Domain:` tail: try the largest number of
consumed (non-newline) characters first. -/
def nb1Try (t : List Char) (k : Nat) : Option (List Char) :=
  match nbDomTail (t.drop k) with
  | some cap => some cap
  | none =>
    match k with
    | 0 => none
    | j + 1 => nb1Try t j

/-- Match `NetBIOS.*Domain:\s*([a-zA-Z0-9\-]+)` (IGNORECASE) anchored at
the current position; `.` does not match a newline. -/
def tryNB1At (s : List Char) : Option (List Char) :=
  if headMatch (toL "netbios") (lowerL s) then
    let t := s.drop 7
    nb1Try t (t.takeWhile (fun c => c ≠ '\n')).length
  else none

/-- Tail `:\s*([a-zA-Z0-9\-]+)` of the second NetBIOS pattern, anchored at
the current position. -/
def nb2Colon (v : List Char) : Option (List Char) :=
  match v with
  | ':' :: w =>
    let cap := (w.dropWhile isSpaceC).takeWhile isNBChar
    if cap = [] then none else some cap
  | _ => none

/-- Greedy second `.*` (between `Computer` and `:`), largest consumption
first. -/
def nb2TryB (u : List Char) (k : Nat) : Option (List Char) :=
  match nb2Colon (u.drop k) with
  | some cap => some cap
  | none =>
    match k with
    | 0 => none
    | j + 1 => nb2TryB u j

/-- Greedy first `.*` (between `NetBIOS` and `Computer`), largest
consumption first; on success continues with the second `.*`. -/
def nb2TryA (t : List Char) (k : Nat) : Option (List Char) :=
  match
    (if headMatch (toL "computer") (lowerL (t.drop k)) then
      let u := (t.drop k).drop 8
      nb2TryB u (u.takeWhile (fun c => c ≠ '\n')).length
    else none) with
  | some cap => some cap
  | none =>
    match k with
    | 0 => none
    | j + 1 => nb2TryA t j

/-- Match `NetBIOS.*Computer.*:\s*([a-zA-Z0-9\-]+)` (IGNORECASE) anchored
at the current position. -/
def tryNB2At (s : List Char) : Option (List Char) :=
  if headMatch (toL "netbios") (lowerL s) then
    let t := s.drop 7
    nb2TryA t (t.takeWhile (fun c => c ≠ '\n')).length
  else none

/-- `NmapParser._extract_netbios`: NetBIOS domain label first, NetBIOS
computer label second, captured value stripped and upper-cased. -/
def extractNetbios (block : List Char) : Option (List Char) :=
  match reSearch tryNB1At block with
  | some cap => some (upperL (stripL cap))
  | none =>
    match reSearch tryNB2At block with
    | some cap => some (upperL (stripL cap))
    | none => none

/-! ### Host parsing and the report loop -/

/-- The `DomainController` record (`ip`, `hostname`, `domain`, `netbios`,
`ports`, `services`). -/
structure DCRecord where
  ip : List Char
  hostname : List Char
  domain : Option (List Char)
  netbios : Option (List Char)
  ports : List Nat
  services : List (List Char)
deriving DecidableEq

/-- `host_block.split('\n')[0]`. -/
def firstLineOf (block : List Char) : List Char :=
  (splitOnChar '\n' block).headD []

/-- Header parsing of `_parse_host` (lines 122-130): the extracted IP and
the hostname, which falls back to the IP when the anchored hostname
pattern finds nothing; `none` when no IP parses. -/
def parseCandidate (block : List Char) : Option (List Char × List Char) :=
  let fl := firstLineOf block
  match ipSearch fl with
  | none => none
  | some ip =>
    some (ip, match hostnameRaw fl with
              | some cap => stripL cap
              | none => ip)

/-- `NmapParser._parse_host`. -/
def parseHost (block : List Char) : Option DCRecord :=
  match parseCandidate block with
  | none => none
  | some (ip, hostname) =>
    let r := checkDomainController block
    if r.1 = false then none
    else
      some { ip := ip, hostname := hostname,
             domain := extractDomain block,
             netbios := extractNetbios block,
             ports := r.2.1, services := r.2.2 }

/-- Structural worker for the literal split; the fuel only bounds the
recursion depth and is irrelevant as long as it reaches the text length
(every step consumes at least one character). -/
def splitGo (sep : List Char) : Nat → List Char → List (List Char)
  | _, [] => [[]]
  | 0, _ :: _ => [[]]
  | fuel + 1, c :: rest =>
    if headMatch sep (c :: rest) && !sep.isEmpty then
      [] :: splitGo sep fuel (rest.drop (sep.length - 1))
    else
      let r := splitGo sep fuel rest
      (c :: r.headD []) :: r.tail

/-- `re.split(r'Nmap scan report for ', content)` for the literal marker:
split at each non-overlapping occurrence, scanning left to right. -/
def splitOnL (sep : List Char) (s : List Char) : List (List Char) :=
  splitGo sep s.length s

/-- The host-delimiter marker. -/
def NMAP_MARKER : List Char := toL "Nmap scan report for "

/-- `f'Host {idx}: '`, the per-host error tag. -/
def hostTag (idx : Nat) : List Char := toL "Host " ++ natToDigits idx ++ toL ": "

/-- The per-host loop of `NmapParser.parse` (lines 104-113), over an
abstract per-host step that either returns an optional record or raises an
error message; returns the collected records and the error list. -/
def processHostsGo (f : List Char → Except (List Char) (Option DCRecord))
    (idx : Nat) : List (List Char) → List DCRecord × List (List Char)
  | [] => ([], [])
  | b :: rest =>
    let r := processHostsGo f (idx + 1) rest
    match f b with
    | Except.ok (some dc) => (dc :: r.1, r.2)
    | Except.ok none => r
    | Except.error e => (r.1, (hostTag idx ++ e) :: r.2)

/-- The loop started at 1-based host index 1. -/
def processHosts (f : List Char → Except (List Char) (Option DCRecord))
    (blocks : List (List Char)) : List DCRecord × List (List Char) :=
  processHostsGo f 1 blocks

/-- `_parse_host` as the per-host step of `parse`: it is total, so it
never contributes an error entry. -/
def parseHostE (b : List Char) : Except (List Char) (Option DCRecord) :=
  Except.ok (parseHost b)

/-- `NmapParser.parse` over an abstract per-host step: the total host
count, the records, the error list, and the returned success flag. -/
def parseReportWith (f : List Char → Except (List Char) (Option DCRecord))
    (content : List Char) : Nat × (List DCRecord × List (List Char)) × Bool :=
  let hosts := splitOnL NMAP_MARKER content
  (hosts.length - 1, processHosts f (hosts.drop 1), true)

/-- `NmapParser.parse` with the real `_parse_host`. -/
def parseReport (content : List Char) : Nat × (List DCRecord × List (List Char)) × Bool :=
  parseReportWith parseHostE content

/-- The service name that the `AD_PORTS` table associates with a port. -/
def serviceNameOf (p : Nat) : List Char :=
  ((AD_PORTS.find? (fun pr => pr.1 == p)).map Prod.snd).getD []

/-! ### Helper lemmas -/

theorem headMatch_append_same (a x y : List Char) :
    headMatch (a ++ x) (a ++ y) = headMatch x y := by
  induction a with
  | nil => rfl
  | cons c a ih => simp [headMatch, ih]

theorem headMatch_self_append (a b : List Char) : headMatch a (a ++ b) = true := by
  induction a with
  | nil => rfl
  | cons c a ih => simp [headMatch, ih]

theorem eq_append_drop_of_headMatch :
    ∀ {a b : List Char}, headMatch a b = true → b = a ++ b.drop a.length := by
  intro a
  induction a with
  | nil => intro b _; simp
  | cons x xs ih =>
    intro b h
    cases b with
    | nil => simp [headMatch] at h
    | cons y ys =>
      simp only [headMatch, Bool.and_eq_true, beq_iff_eq] at h
      simpa [h.1] using congrArg (y :: ·) (ih h.2)

theorem digitChar_toNat_sub (m : Nat) (h : m < 10) :
    (Nat.digitChar m).toNat - 48 = m := by
  interval_cases m <;> rfl

theorem natToDigitsGo_fuel_irrel :
    ∀ (f1 f2 n : Nat), n < f1 → n < f2 → natToDigitsGo f1 n = natToDigitsGo f2 n := by
  intro f1
  induction f1 with
  | zero => intro f2 n h1; omega
  | succ f1 ih =>
    intro f2 n h1 h2
    cases f2 with
    | zero => omega
    | succ f2 =>
      simp only [natToDigitsGo]
      by_cases h : n < 10
      · simp [h]
      · rw [if_neg h, if_neg h]
        have hrec : natToDigitsGo f1 (n / 10) = natToDigitsGo f2 (n / 10) := by
          apply ih
          · have hq : n / 10 < n := Nat.div_lt_self (by omega) (by omega); omega
          · have hq : n / 10 < n := Nat.div_lt_self (by omega) (by omega); omega
        rw [hrec]

theorem natToDigits_unfold (n : Nat) :
    natToDigits n
      = if n < 10 then [Nat.digitChar n]
        else natToDigits (n / 10) ++ [Nat.digitChar (n % 10)] := by
  show natToDigitsGo (n + 1) n = _
  simp only [natToDigitsGo]
  by_cases h : n < 10
  · simp [h]
  · rw [if_neg h, if_neg h]
    rw [natToDigitsGo_fuel_irrel n (n / 10 + 1) (n / 10)
      (by have hq : n / 10 < n := Nat.div_lt_self (by omega) (by omega); omega) (by omega)]
    rfl

theorem digitsToNat_natToDigits (n : Nat) : digitsToNat (natToDigits n) = n := by
  induction n using Nat.strong_induction_on with
  | _ n ih =>
    rw [natToDigits_unfold]
    by_cases h : n < 10
    · rw [if_pos h]
      simpa [digitsToNat] using digitChar_toNat_sub n h
    · rw [if_neg h]
      have hd : (Nat.digitChar (n % 10)).toNat - 48 = n % 10 :=
        digitChar_toNat_sub _ (Nat.mod_lt _ (by omega))
      have ih10 := ih (n / 10) (Nat.div_lt_self (by omega) (by omega))
      simp only [digitsToNat, List.foldl_append, List.foldl_cons,
        List.foldl_nil] at ih10 ⊢
      rw [ih10, hd]
      omega

theorem natToDigits_inj {m n : Nat} (h : natToDigits m = natToDigits n) : m = n := by
  have := congrArg digitsToNat h
  simpa [digitsToNat_natToDigits] using this

theorem isDigit_of_mem_natToDigits (n : Nat) :
    ∀ c ∈ natToDigits n, c.isDigit = true := by
  induction n using Nat.strong_induction_on with
  | _ n ih =>
    rw [natToDigits_unfold]
    by_cases h : n < 10
    · rw [if_pos h]
      intro c hc
      simp only [List.mem_singleton] at hc
      subst hc
      interval_cases n <;> rfl
    · rw [if_neg h]
      intro c hc
      rcases List.mem_append.1 hc with hc | hc
      · exact ih (n / 10) (Nat.div_lt_self (by omega) (by omega)) c hc
      · simp only [List.mem_singleton] at hc
        subst hc
        have h10 : n % 10 < 10 := Nat.mod_lt _ (by omega)
        interval_cases hm : n % 10 <;> simp_all <;> rfl

theorem eq_of_headMatch_colon :
    ∀ (xs : List Char), ∀ {ys u v : List Char},
      (∀ c ∈ xs, c.isDigit = true) → (∀ c ∈ ys, c.isDigit = true) →
      headMatch (xs ++ ':' :: u) (ys ++ ':' :: v) = true → xs = ys := by
  intro xs
  induction xs with
  | nil =>
    intro ys u v _ hy h
    cases ys with
    | nil => rfl
    | cons y ys =>
      simp only [List.nil_append, List.cons_append, headMatch,
        Bool.and_eq_true, beq_iff_eq] at h
      have := hy y (by simp)
      rw [← h.1] at this
      simp [Char.isDigit] at this
  | cons x xs ih =>
    intro ys u v hx hy h
    cases ys with
    | nil =>
      simp only [List.cons_append, List.nil_append, headMatch,
        Bool.and_eq_true, beq_iff_eq] at h
      have := hx x (by simp)
      rw [h.1] at this
      simp [Char.isDigit] at this
    | cons y ys =>
      simp only [List.cons_append, headMatch, Bool.and_eq_true, beq_iff_eq] at h
      have heq : xs = ys :=
        ih (fun c hc => hx c (by simp [hc])) (fun c hc => hy c (by simp [hc])) h.2
      rw [h.1, heq]

theorem hostTag_headMatch_iff (i j : Nat) (e : List Char) :
    headMatch (hostTag i) (hostTag j ++ e) = true ↔ i = j := by
  constructor
  · intro h
    have hre : ∀ (k : Nat) (t : List Char),
        hostTag k ++ t = toL "Host " ++ (natToDigits k ++ ':' :: ' ' :: t) := by
      intro k t
      show (toL "Host " ++ natToDigits k ++ toL ": ") ++ t = _
      simp [toL, List.append_assoc]
    have h2 : headMatch (toL "Host " ++ (natToDigits i ++ ':' :: ' ' :: []))
        (toL "Host " ++ (natToDigits j ++ ':' :: ' ' :: e)) = true := by
      have hh : hostTag i = hostTag i ++ [] := by simp
      rw [← hre, ← hre, ← hh]
      exact h
    rw [headMatch_append_same] at h2
    exact natToDigits_inj
      (eq_of_headMatch_colon _ (isDigit_of_mem_natToDigits i)
        (isDigit_of_mem_natToDigits j) h2)
  · intro h
    subst h
    exact headMatch_self_append _ _

theorem foldl_ports_spec (bl : List Char) :
    ∀ (l : List (Nat × List Char)) (acc : List Nat × List (List Char)),
      l.foldl
        (fun acc pr =>
          if containsL (portPattern pr.1) bl then
            (acc.1 ++ [pr.1], acc.2 ++ [pr.2])
          else acc)
        acc
      = (acc.1 ++ (l.filter (fun pr => containsL (portPattern pr.1) bl)).map Prod.fst,
         acc.2 ++ (l.filter (fun pr => containsL (portPattern pr.1) bl)).map Prod.snd) := by
  intro l
  induction l with
  | nil => intro acc; simp
  | cons pr rest ih =>
    intro acc
    by_cases h : containsL (portPattern pr.1) bl = true
    · simp [List.foldl_cons, h, ih, List.append_assoc]
    · simp only [Bool.not_eq_true] at h
      simp [List.foldl_cons, h, ih]

/-- The detected ports are the table-order filter of `AD_PORTS`, and the
services are the parallel names. -/
theorem checkDC_found_spec (block : List Char) :
    (checkDomainController block).2.1
      = (AD_PORTS.filter
          (fun pr => containsL (portPattern pr.1) (lowerL block))).map Prod.fst
    ∧ (checkDomainController block).2.2
      = (AD_PORTS.filter
          (fun pr => containsL (portPattern pr.1) (lowerL block))).map Prod.snd := by
  constructor <;>
    simp [checkDomainController, foldl_ports_spec (lowerL block) AD_PORTS ([], [])]

theorem checkDC_fst_eq (block : List Char) :
    (checkDomainController block).1
      = ((checkDomainController block).2.1.contains 88
          && ((checkDomainController block).2.1.contains 389
              || (checkDomainController block).2.1.contains 636)) := rfl

theorem checkDC_contains_iff (block : List Char) (p : Nat) (srv : List Char)
    (hmem : (p, srv) ∈ AD_PORTS)
    (huniq : ∀ pr ∈ AD_PORTS, pr.1 = p → pr = (p, srv)) :
    ((checkDomainController block).2.1.contains p = true)
      ↔ containsL (portPattern p) (lowerL block) = true := by
  rw [(checkDC_found_spec block).1]
  simp only [List.contains, List.elem_iff, List.mem_map, List.mem_filter]
  constructor
  · rintro ⟨pr, ⟨hin, hcond⟩, hfst⟩
    have := huniq pr hin hfst
    rw [this] at hcond
    exact hcond
  · intro h
    exact ⟨(p, srv), ⟨hmem, h⟩, rfl⟩

/-- The records collected by the per-host loop are exactly the successful
results, in block order, independent of the running index. -/
theorem processHostsGo_dcs (f : List Char → Except (List Char) (Option DCRecord)) :
    ∀ (blocks : List (List Char)) (idx : Nat),
      (processHostsGo f idx blocks).1
        = blocks.filterMap
            (fun b => match f b with
                      | Except.ok (some dc) => some dc
                      | _ => none) := by
  intro blocks
  induction blocks with
  | nil => intro idx; rfl
  | cons b rest ih =>
    intro idx
    cases hfb : f b with
    | ok o =>
      cases o with
      | none => simp [processHostsGo, hfb, List.filterMap_cons, ih]
      | some dc => simp [processHostsGo, hfb, List.filterMap_cons, ih]
    | error e => simp [processHostsGo, hfb, List.filterMap_cons, ih]

/-- Every error entry of the loop is tagged with a host index at least the
running index. -/
theorem processHostsGo_errs_shape (f : List Char → Except (List Char) (Option DCRecord)) :
    ∀ (blocks : List (List Char)) (idx : Nat) (x : List Char),
      x ∈ (processHostsGo f idx blocks).2 → ∃ j e, idx ≤ j ∧ x = hostTag j ++ e := by
  intro blocks
  induction blocks with
  | nil => intro idx x hx; simp [processHostsGo] at hx
  | cons b rest ih =>
    intro idx x hx
    cases hfb : f b with
    | ok o =>
      have hx' : x ∈ (processHostsGo f (idx + 1) rest).2 := by
        cases o <;> simpa [processHostsGo, hfb] using hx
      obtain ⟨j, e, hj, he⟩ := ih (idx + 1) x hx'
      exact ⟨j, e, by omega, he⟩
    | error e0 =>
      simp only [processHostsGo, hfb, List.mem_cons] at hx
      rcases hx with hx | hx
      · exact ⟨idx, e0, le_refl _, hx⟩
      · obtain ⟨j, e, hj, he⟩ := ih (idx + 1) x hx
        exact ⟨j, e, by omega, he⟩

/-- If the `k`-th block (0-based) raises `msg`, the error list contains
exactly one entry tagged with host index `idx + k`, namely the tag
followed by `msg`. -/
theorem processHostsGo_filter_tag (f : List Char → Except (List Char) (Option DCRecord)) :
    ∀ (blocks : List (List Char)) (idx k : Nat) (hk : k < blocks.length)
      (msg : List Char), f (blocks.get ⟨k, hk⟩) = Except.error msg →
      (processHostsGo f idx blocks).2.filter
          (fun x => headMatch (hostTag (idx + k)) x)
        = [hostTag (idx + k) ++ msg] := by
  intro blocks
  induction blocks with
  | nil => intro idx k hk; simp at hk
  | cons b rest ih =>
    intro idx k hk msg hmsg
    cases k with
    | zero =>
      simp only [List.get] at hmsg
      have htail : (processHostsGo f (idx + 1) rest).2.filter
          (fun x => headMatch (hostTag (idx + 0)) x) = [] := by
        rw [List.filter_eq_nil_iff]
        intro x hx
        obtain ⟨j, e, hj, he⟩ := processHostsGo_errs_shape f rest (idx + 1) x hx
        subst he
        simp only [Bool.not_eq_true]
        rcases hb : headMatch (hostTag (idx + 0)) (hostTag j ++ e) with _ | _
        · rfl
        · have := (hostTag_headMatch_iff (idx + 0) j e).1 hb
          omega
      simp only [processHostsGo, hmsg, List.filter_cons]
      rw [if_pos (by simpa using (hostTag_headMatch_iff (idx + 0) idx msg).2 (by omega))]
      rw [htail]
      simp
    | succ k' =>
      have hk' : k' < rest.length := by simpa using hk
      have hmsg' : f (rest.get ⟨k', hk'⟩) = Except.error msg := by
        simpa [List.get] using hmsg
      have hidx : idx + 1 + k' = idx + (k' + 1) := by omega
      have ihr := ih (idx + 1) k' hk' msg hmsg'
      rw [hidx] at ihr
      cases hfb : f b with
      | ok o => cases o <;> simpa [processHostsGo, hfb] using ihr
      | error e0 =>
        simp only [processHostsGo, hfb, List.filter_cons]
        rw [if_neg]
        · exact ihr
        · intro hcontra
          have := (hostTag_headMatch_iff (idx + (k' + 1)) idx e0).1 (by simpa using hcontra)
          omega

theorem splitGo_ne_nil (sep : List Char) :
    ∀ (fuel : Nat) (s : List Char), splitGo sep fuel s ≠ [] := by
  intro fuel s
  match fuel, s with
  | _, [] => simp [splitGo]
  | 0, _ :: _ => simp [splitGo]
  | fuel + 1, c :: rest =>
    rw [splitGo]
    by_cases h : (headMatch sep (c :: rest) && !sep.isEmpty) = true
    · simp [h]
    · simp only [Bool.not_eq_true] at h
      simp [h]

theorem splitGo_fuel_irrel (sep : List Char) :
    ∀ (f1 f2 : Nat) (s : List Char), s.length ≤ f1 → s.length ≤ f2 →
      splitGo sep f1 s = splitGo sep f2 s := by
  intro f1
  induction f1 with
  | zero =>
    intro f2 s h1 _
    have : s = [] := List.length_eq_zero.1 (by omega)
    subst this
    cases f2 <;> rfl
  | succ f1 ih =>
    intro f2 s h1 h2
    cases s with
    | nil => cases f2 <;> rfl
    | cons c rest =>
      cases f2 with
      | zero => simp at h2
      | succ f2 =>
        simp only [splitGo]
        simp only [List.length_cons] at h1 h2
        by_cases h : (headMatch sep (c :: rest) && !sep.isEmpty) = true
        · rw [if_pos h, if_pos h]
          rw [ih f2 (rest.drop (sep.length - 1))
            (by simp only [List.length_drop]; omega)
            (by simp only [List.length_drop]; omega)]
        · rw [if_neg h, if_neg h]
          rw [ih f2 rest (by omega) (by omega)]

theorem splitOnL_nil (sep : List Char) : splitOnL sep [] = [[]] := rfl

theorem splitOnL_cons (sep : List Char) (c : Char) (rest : List Char) :
    splitOnL sep (c :: rest)
      = if headMatch sep (c :: rest) && !sep.isEmpty then
          [] :: splitOnL sep (rest.drop (sep.length - 1))
        else
          (c :: (splitOnL sep rest).headD []) :: (splitOnL sep rest).tail := by
  show splitGo sep (rest.length + 1) (c :: rest) = _
  rw [splitGo]
  by_cases h : (headMatch sep (c :: rest) && !sep.isEmpty) = true
  · rw [if_pos h, if_pos h]
    rw [splitGo_fuel_irrel sep rest.length (rest.drop (sep.length - 1)).length
      (rest.drop (sep.length - 1))
      (by simp only [List.length_drop]; omega) (le_refl _)]
    rfl
  · rw [if_neg h, if_neg h]
    rfl

theorem splitOnL_ne_nil (sep s : List Char) : splitOnL sep s ≠ [] :=
  splitGo_ne_nil sep s.length s

/-- With no marker occurrence, the split is the whole text as a single
segment. -/
theorem splitOnL_of_not_contains (sep : List Char) :
    ∀ (s : List Char), containsL sep s = false → splitOnL sep s = [s] := by
  intro s
  induction s with
  | nil => intro _; rfl
  | cons c rest ih =>
    intro hc
    simp only [containsL, Bool.or_eq_false_iff] at hc
    rw [splitOnL_cons, if_neg (by simp [hc.1])]
    simp [ih hc.2]

theorem joinWith_cons_of_ne_nil (sep x : List Char) (r : List (List Char)) (hr : r ≠ []) :
    joinWith sep (x :: r) = x ++ sep ++ joinWith sep r := by
  cases r with
  | nil => exact absurd rfl hr
  | cons y t => rfl

theorem joinWith_cons_head (sep : List Char) (c : Char) (h : List Char)
    (t : List (List Char)) :
    joinWith sep ((c :: h) :: t) = c :: joinWith sep (h :: t) := by
  cases t with
  | nil => rfl
  | cons y t' => simp [joinWith]

theorem joinWith_splitOnL_bounded (sep : List Char) (hsep : sep ≠ []) :
    ∀ (n : Nat) (s : List Char), s.length ≤ n →
      joinWith sep (splitOnL sep s) = s := by
  intro n
  induction n with
  | zero =>
    intro s hs
    have : s = [] := List.length_eq_zero.1 (by omega)
    subst this
    rfl
  | succ n ih =>
    intro s hs
    cases s with
    | nil => rfl
    | cons c rest =>
      rw [splitOnL_cons]
      by_cases hcond : (headMatch sep (c :: rest) && !sep.isEmpty) = true
      · rw [if_pos hcond]
        simp only [Bool.and_eq_true, Bool.not_eq_eq_eq_not, Bool.not_true,
          List.isEmpty_eq_false] at hcond
        have hs1 : 1 ≤ sep.length := List.length_pos.2 hsep
        have hrec : joinWith sep (splitOnL sep (rest.drop (sep.length - 1)))
            = rest.drop (sep.length - 1) := by
          apply ih
          simp only [List.length_drop]
          simp only [List.length_cons] at hs
          omega
        rw [joinWith_cons_of_ne_nil sep [] _ (splitOnL_ne_nil sep _), hrec]
        have hdrop : rest.drop (sep.length - 1) = (c :: rest).drop sep.length := by
          have h1 : sep.length = (sep.length - 1) + 1 := by omega
          rw [h1]
          rfl
        rw [hdrop, List.nil_append, ← eq_append_drop_of_headMatch hcond.1]
      · rw [if_neg hcond]
        have hrec : joinWith sep (splitOnL sep rest) = rest := by
          apply ih
          simp only [List.length_cons] at hs
          omega
        rcases hr : splitOnL sep rest with _ | ⟨h0, t0⟩
        · exact absurd hr (splitOnL_ne_nil sep rest)
        · simp only [List.headD, List.tail]
          rw [joinWith_cons_head]
          rw [hr] at hrec
          rw [hrec]

/-- Splitting and re-joining with the marker reconstructs the text: each
block keeps its text (line breaks included). -/
theorem joinWith_splitOnL (sep : List Char) (hsep : sep ≠ []) (s : List Char) :
    joinWith sep (splitOnL sep s) = s :=
  joinWith_splitOnL_bounded sep hsep s.length s (le_refl _)

/-- When the first marker occurrence starts right after `pre`, the split
yields `pre` as the discarded preamble segment followed by the split of
the remainder. -/
theorem splitOnL_first_occ (sep : List Char) (hsep : sep ≠ []) :
    ∀ (pre rest : List Char),
      (∀ k, k < pre.length → headMatch sep ((pre ++ sep ++ rest).drop k) = false) →
      splitOnL sep (pre ++ sep ++ rest) = pre :: splitOnL sep rest := by
  intro pre
  induction pre with
  | nil =>
    intro rest _
    simp only [List.nil_append]
    cases hs : sep with
    | nil => exact absurd hs hsep
    | cons c sep' =>
      rw [← hs]
      have hsl : sep ++ rest = c :: (sep' ++ rest) := by rw [hs]; rfl
      rw [hsl, splitOnL_cons]
      rw [if_pos (show (headMatch sep (c :: (sep' ++ rest)) && !sep.isEmpty) = true by
        have h1 : headMatch sep (sep ++ rest) = true := headMatch_self_append sep rest
        rw [hsl] at h1
        rw [h1, hs]
        rfl)]
      have hlen : sep.length - 1 = sep'.length := by rw [hs]; simp
      rw [hlen, List.drop_left]
  | cons p pre' ih =>
    intro rest hocc
    have hs : (p :: pre') ++ sep ++ rest = p :: (pre' ++ sep ++ rest) := rfl
    rw [hs, splitOnL_cons]
    have h0 : headMatch sep (p :: (pre' ++ sep ++ rest)) = false := by
      have := hocc 0 (by simp)
      rw [hs] at this
      simpa using this
    simp only [List.append_assoc] at h0
    rw [if_neg (by simp [h0])]
    have hocc' : ∀ k, k < pre'.length →
        headMatch sep ((pre' ++ sep ++ rest).drop k) = false := by
      intro k hk
      have := hocc (k + 1) (by simp; omega)
      rw [hs] at this
      simpa using this
    rw [ih rest hocc']
    rfl

theorem serviceNameOf_table : ∀ pr ∈ AD_PORTS, serviceNameOf pr.1 = pr.2 := by decide

theorem processHostsGo_append_ok_none
    (f : List Char → Except (List Char) (Option DCRecord)) (block : List Char)
    (hfb : f block = Except.ok none) :
    ∀ (bs : List (List Char)) (idx : Nat),
      processHostsGo f idx (bs ++ [block]) = processHostsGo f idx bs := by
  intro bs
  induction bs with
  | nil => intro idx; simp [processHostsGo, hfb]
  | cons b rest ih =>
    intro idx
    simp only [List.cons_append, processHostsGo, List.append_eq, ih (idx + 1)]

/-- The classification flag of `_check_domain_controller` holds exactly
when the lowercased block text contains `88/tcp` and `389/tcp` or
`636/tcp`. -/
theorem checkDC_isdc_iff (block : List Char) :
    (checkDomainController block).1 = true ↔
      (containsL (toL "88/tcp") (lowerL block) = true ∧
        (containsL (toL "389/tcp") (lowerL block) = true ∨
         containsL (toL "636/tcp") (lowerL block) = true)) := by
  have p88 : portPattern 88 = toL "88/tcp" := by decide
  have p389 : portPattern 389 = toL "389/tcp" := by decide
  have p636 : portPattern 636 = toL "636/tcp" := by decide
  have h88 := checkDC_contains_iff block 88 (toL "Kerberos") (by decide) (by decide)
  have h389 := checkDC_contains_iff block 389 (toL "LDAP") (by decide) (by decide)
  have h636 := checkDC_contains_iff block 636 (toL "LDAPS") (by decide) (by decide)
  rw [p88] at h88
  rw [p389] at h389
  rw [p636] at h636
  rw [checkDC_fst_eq]
  simp only [Bool.and_eq_true, Bool.or_eq_true]
  rw [h88, h389, h636]

/-! ### Claim theorems -/

/-- C1: for every host block whose first line contains a parsable IPv4
dotted-quad, `_parse_host` promotes the block to a Domain Controller
record iff the lowercased block text contains `88/tcp` and also `389/tcp`
or `636/tcp`; non-qualifying blocks yield no record (and, the per-host
step being total, no error). -/
theorem c1_dc_promotion_iff (block : List Char)
    (h : (ipSearch (firstLineOf block)).isSome = true) :
    ((parseHost block).isSome = true) ↔
      (containsL (toL "88/tcp") (lowerL block) = true ∧
        (containsL (toL "389/tcp") (lowerL block) = true ∨
         containsL (toL "636/tcp") (lowerL block) = true)) := by
  obtain ⟨ip, hip⟩ := Option.isSome_iff_exists.1 h
  rw [← checkDC_isdc_iff]
  cases hdc : (checkDomainController block).1 with
  | false => simp [parseHost, parseCandidate, hip, hdc]
  | true => simp [parseHost, parseCandidate, hip, hdc]

theorem c1_dc_promotion_iff_witness :
    (parseHost (toL "10.1.2.3\n88/tcp open kerberos-sec\n389/tcp open ldap")).isSome
      = true :=
  (c1_dc_promotion_iff (toL "10.1.2.3\n88/tcp open kerberos-sec\n389/tcp open ldap")
    (by decide)).2 (by decide)

/-- C2 (code evaluation): on a block holding a multi-component
`defaultNamingContext`, the extractor returns only the first `DC=`
component (the `[^\n,]+` capture stops at the first comma), not the
dot-joined list of all components. -/
theorem c2_naming_context_truncation :
    extractDomain (toL "defaultNamingContext: DC=corp,DC=example,DC=local")
        = some (toL "corp")
    ∧ extractDomain (toL "defaultNamingContext: DC=corp,DC=example,DC=local")
        ≠ some (toL "corp.example.local") := by
  constructor
  · decide
  · decide

/-- C5: the detected ports are exactly the table-order filter of
`AD_PORTS` by substring occurrence of `<port>/tcp` in the lowercased
block, the services are the parallel table names, of equal length, and
position by position the service is the table's name for the port. -/
theorem c5_port_table_scan (block : List Char) :
    ((checkDomainController block).2.1
        = (AD_PORTS.filter
            (fun pr => containsL (portPattern pr.1) (lowerL block))).map Prod.fst)
    ∧ ((checkDomainController block).2.2
        = (AD_PORTS.filter
            (fun pr => containsL (portPattern pr.1) (lowerL block))).map Prod.snd)
    ∧ (checkDomainController block).2.2.length = (checkDomainController block).2.1.length
    ∧ (∀ i : Nat, (checkDomainController block).2.2.get? i
        = ((checkDomainController block).2.1.get? i).map serviceNameOf) := by
  obtain ⟨hp, hs⟩ := checkDC_found_spec block
  refine ⟨hp, hs, by rw [hp, hs, List.length_map, List.length_map], ?_⟩
  intro i
  rw [hp, hs, List.get?_map, List.get?_map]
  cases hm : (AD_PORTS.filter
      (fun pr => containsL (portPattern pr.1) (lowerL block))).get? i with
  | none => rfl
  | some pr =>
    have hmem : pr ∈ AD_PORTS :=
      List.mem_of_mem_filter (List.get?_mem hm)
    show some pr.2 = some (serviceNameOf pr.1)
    rw [serviceNameOf_table pr hmem]

/-- C10: with plain substring matching, `3389/tcp` also matches the
pattern `389/tcp`, so a block offering only Kerberos (88) and RDP (3389)
is recorded as having port 389 and is classified as a Domain
Controller. -/
theorem c10_suffix_port_counts_as_match :
    ((checkDomainController
        (toL "10.0.0.5\nPORT STATE SERVICE\n88/tcp open kerberos-sec\n3389/tcp open ms-wbt-server")).2.1
      = [88, 389])
    ∧ ((checkDomainController
        (toL "10.0.0.5\nPORT STATE SERVICE\n88/tcp open kerberos-sec\n3389/tcp open ms-wbt-server")).1
      = true)
    ∧ (parseHost
        (toL "10.0.0.5\nPORT STATE SERVICE\n88/tcp open kerberos-sec\n3389/tcp open ms-wbt-server")
      = some { ip := toL "10.0.0.5", hostname := toL "10.0.0.5", domain := none,
               netbios := none, ports := [88, 389],
               services := [toL "Kerberos", toL "LDAP"] }) := by
  refine ⟨by decide, by decide, by decide⟩

/-- C3: `_extract_domain` tries its four strategies in the fixed source
order and returns the first strategy's result — in particular the
`Domain:` label wins over a `defaultNamingContext` value — and yields
`none` (not an error) when no strategy matches. -/
theorem c3_strategy_order (block : List Char) :
    (∀ d, domainFromLabel block = some d → extractDomain block = some d)
    ∧ (domainFromLabel block = none →
        ∀ d, domainFromNamingContext block = some d → extractDomain block = some d)
    ∧ (domainFromLabel block = none → domainFromNamingContext block = none →
        ∀ d, domainFromDnsName block = some d → extractDomain block = some d)
    ∧ (domainFromLabel block = none → domainFromNamingContext block = none →
        domainFromDnsName block = none →
        ∀ d, domainFromForest block = some d → extractDomain block = some d)
    ∧ (domainFromLabel block = none → domainFromNamingContext block = none →
        domainFromDnsName block = none → domainFromForest block = none →
        extractDomain block = none) := by
  refine ⟨?_, ?_, ?_, ?_, ?_⟩
  · intro d h1
    simp [extractDomain, h1]
  · intro h1 d h2
    simp [extractDomain, h1, h2]
  · intro h1 h2 d h3
    simp [extractDomain, h1, h2, h3]
  · intro h1 h2 h3 d h4
    simp [extractDomain, h1, h2, h3, h4]
  · intro h1 h2 h3 h4
    simp [extractDomain, h1, h2, h3, h4]

theorem c3_strategy_order_witness :
    extractDomain (toL "Domain: alpha.example\ndefaultNamingContext: DC=beta,DC=example")
        = some (toL "alpha.example")
    ∧ extractDomain (toL "no labels at all") = none := by
  constructor
  · exact (c3_strategy_order
      (toL "Domain: alpha.example\ndefaultNamingContext: DC=beta,DC=example")).1
      (toL "alpha.example") (by decide)
  · exact (c3_strategy_order (toL "no labels at all")).2.2.2.2
      (by decide) (by decide) (by decide) (by decide)

/-- C4: when the first two strategies fail and a `dns_computer_name:`
value is captured whose stripped text contains a dot, the extracted
domain is the dot-join of all dot-separated labels after the first. -/
theorem c4_dns_strategy (block v : List Char)
    (h1 : domainFromLabel block = none)
    (h2 : domainFromNamingContext block = none)
    (h3 : dnsNameSearch block = some v)
    (hdot : (stripL v).contains '.' = true) :
    extractDomain block
      = some (joinWith ['.'] ((splitOnChar '.' (stripL v)).drop 1)) := by
  have hdot' : '.' ∈ stripL v := by
    simpa [List.contains, List.elem_iff] using hdot
  have hm3 : domainFromDnsName block
      = some (joinWith ['.'] ((splitOnChar '.' (stripL v)).drop 1)) := by
    simp [domainFromDnsName, h3, hdot']
  simp [extractDomain, h1, h2, hm3]

theorem c4_dns_strategy_witness :
    extractDomain (toL "dns_computer_name: dc01.corp.local")
        = some (joinWith ['.']
            ((splitOnChar '.' (stripL (toL "dc01.corp.local"))).drop 1))
    ∧ joinWith ['.'] ((splitOnChar '.' (stripL (toL "dc01.corp.local"))).drop 1)
        = toL "corp.local" := by
  constructor
  · exact c4_dns_strategy (toL "dns_computer_name: dc01.corp.local")
      (toL "dc01.corp.local") (by decide) (by decide) (by decide) (by decide)
  · decide

/-- C6: the candidate header parse pairs the extracted IP with the
hostname, which is everything on the first line before the first `(`
(trimmed of whitespace) and defaults to the IP when no character precedes
the first `(`; a block whose first line has no parsable IP is rejected
outright. -/
theorem c6_hostname_extraction (block : List Char) :
    (parseCandidate block
        = (ipSearch (firstLineOf block)).map
            (fun ip =>
              (ip,
                if (firstLineOf block).takeWhile (fun c => c ≠ '(') = [] then ip
                else stripL ((firstLineOf block).takeWhile (fun c => c ≠ '(')))))
    ∧ (ipSearch (firstLineOf block) = none → parseHost block = none) := by
  constructor
  · cases hip : ipSearch (firstLineOf block) with
    | none => simp [parseCandidate, hip]
    | some ip =>
      have hpc : parseCandidate block
          = some (ip, match hostnameRaw (firstLineOf block) with
                      | some cap => stripL cap
                      | none => ip) := by
        simp [parseCandidate, hip]
      rw [hpc, Option.map_some']
      by_cases hcap : (firstLineOf block).takeWhile (fun c => c ≠ '(') = []
      · have hraw : hostnameRaw (firstLineOf block) = none := by
          unfold hostnameRaw
          rw [if_pos hcap]
        rw [hraw, if_pos hcap]
      · have hraw : hostnameRaw (firstLineOf block)
            = some ((firstLineOf block).takeWhile (fun c => c ≠ '(')) := by
          unfold hostnameRaw
          rw [if_neg hcap]
        rw [hraw, if_neg hcap]
  · intro hip
    simp [parseHost, parseCandidate, hip]

theorem c6_hostname_extraction_witness :
    parseHost (toL "gateway.localdomain (offline)\nHost is up.") = none :=
  (c6_hostname_extraction (toL "gateway.localdomain (offline)\nHost is up.")).2
    (by decide)

/-- C7: if the per-host step raises on the block at 1-based index `i + 1`,
the error list holds exactly one entry tagged `Host (i+1): `, carrying
that message; every block is still processed (the collected records are
the successes over all blocks) and `parse` still returns success. -/
theorem c7_error_isolation
    (f : List Char → Except (List Char) (Option DCRecord))
    (blocks : List (List Char)) (i : Nat) (hi : i < blocks.length)
    (msg : List Char) (h : f (blocks.get ⟨i, hi⟩) = Except.error msg) :
    ((processHosts f blocks).2.filter (fun x => headMatch (hostTag (i + 1)) x)
        = [hostTag (i + 1) ++ msg])
    ∧ ((processHosts f blocks).1
        = blocks.filterMap
            (fun b => match f b with
                      | Except.ok (some dc) => some dc
                      | _ => none))
    ∧ (∀ content, (parseReportWith f content).2.2 = true) := by
  refine ⟨?_, processHostsGo_dcs f blocks 1, fun _ => rfl⟩
  have ht := processHostsGo_filter_tag f blocks 1 i hi msg h
  have hcomm : 1 + i = i + 1 := by omega
  rw [hcomm] at ht
  exact ht

theorem c7_error_isolation_witness :
    ((processHosts
        (fun b => if b = toL "BOOM" then Except.error (toL "bad block")
                  else Except.ok none)
        [toL "first", toL "BOOM", toL "third"]).2.filter
          (fun x => headMatch (hostTag 2) x))
      = [hostTag 2 ++ toL "bad block"] :=
  (c7_error_isolation
    (fun b => if b = toL "BOOM" then Except.error (toL "bad block")
              else Except.ok none)
    [toL "first", toL "BOOM", toL "third"] 1 (by decide) (toL "bad block")
    rfl).1

/-- C8: a block whose first line has no parsable IPv4 yields no record,
and appending such a block to any run changes neither the collected
records nor the error list. -/
theorem c8_no_ip_dropped (block : List Char)
    (h : ipSearch (firstLineOf block) = none) :
    parseHost block = none
    ∧ ∀ bs, processHosts parseHostE (bs ++ [block]) = processHosts parseHostE bs := by
  have hph : parseHost block = none := by
    simp [parseHost, parseCandidate, h]
  refine ⟨hph, ?_⟩
  intro bs
  exact processHostsGo_append_ok_none parseHostE block
    (by simp [parseHostE, hph]) bs 1

theorem c8_no_ip_dropped_witness :
    parseHost (toL "gateway.localdomain\nHost is up.") = none
    ∧ processHosts parseHostE
        ([toL "10.0.0.1\n88/tcp\n389/tcp"] ++ [toL "gateway.localdomain\nHost is up."])
      = processHosts parseHostE [toL "10.0.0.1\n88/tcp\n389/tcp"] := by
  have h := c8_no_ip_dropped (toL "gateway.localdomain\nHost is up.") (by decide)
  exact ⟨h.1, h.2 [toL "10.0.0.1\n88/tcp\n389/tcp"]⟩

/-- C9: a report without the `Nmap scan report for ` marker parses to zero
hosts, zero records and zero errors with the success flag set; splitting
and re-joining preserves every block's text (line breaks included); and
when a first marker occurrence follows a preamble, the parsed blocks are
exactly those of the text after that marker — the preamble is
discarded. -/
theorem c9_zero_marker (content : List Char)
    (h : containsL NMAP_MARKER content = false) :
    parseReport content = (0, ([], []), true)
    ∧ (∀ c, joinWith NMAP_MARKER (splitOnL NMAP_MARKER c) = c)
    ∧ (∀ pre rest,
        (∀ k, k < pre.length →
          headMatch NMAP_MARKER ((pre ++ NMAP_MARKER ++ rest).drop k) = false) →
        (splitOnL NMAP_MARKER (pre ++ NMAP_MARKER ++ rest)).drop 1
          = splitOnL NMAP_MARKER rest) := by
  have hm : NMAP_MARKER ≠ [] := by decide
  refine ⟨?_, fun c => joinWith_splitOnL _ hm c, ?_⟩
  · have hs := splitOnL_of_not_contains NMAP_MARKER content h
    simp [parseReport, parseReportWith, processHosts, processHostsGo, hs]
  · intro pre rest hocc
    rw [splitOnL_first_occ NMAP_MARKER hm pre rest hocc]
    rfl

theorem c9_zero_marker_witness :
    parseReport (toL "plain text, no scan reports here") = (0, ([], []), true)
    ∧ (splitOnL NMAP_MARKER
        (toL "preamble " ++ NMAP_MARKER ++ toL "10.0.0.1\nreport body")).drop 1
      = splitOnL NMAP_MARKER (toL "10.0.0.1\nreport body") := by
  have h := c9_zero_marker (toL "plain text, no scan reports here") (by decide)
  exact ⟨h.1, h.2.2 (toL "preamble ") (toL "10.0.0.1\nreport body") (by decide)⟩
